import Mathlib

/-!
Verification development for the go-epub-grep search engine
(package epubproc).  The Go source is shallowly embedded: pure
functions become Lean functions, streams become lists, the compiled
regular expression becomes an abstract predicate on strings, and the
cancellation context becomes an explicit boolean flag checked at the
points where the Go code polls it.
-/

namespace EpubGrep

/-! ### Go string primitives used by the scanners -/

/-- strings.Join: joins the elements with the separator between them. -/
def goJoin : List String → String → String
  | [], _ => ""
  | x :: xs, sep => xs.foldl (fun acc y => acc ++ sep ++ y) x

/-- Whether the second list is a leading run of the first. -/
def listStartsWith : List Char → List Char → Bool
  | _, [] => true
  | [], _ :: _ => false
  | a :: s, b :: t => a == b && listStartsWith s t

/-- strings.Contains on character lists: the second list occurs inside the first. -/
def listContainsSub : List Char → List Char → Bool
  | [], t => listStartsWith [] t
  | s@(_ :: s'), t => listStartsWith s t || listContainsSub s' t

/-- strings.Contains. -/
def strContains (s sub : String) : Bool := listContainsSub s.toList sub.toList

/-- filepath.Base: the last element of a slash-separated path
(trailing slashes removed; "." for the empty path, "/" when only
separators remain). -/
def filepathBase (path : String) : String :=
  if path = "" then "."
  else
    let cs := (path.toList.reverse).dropWhile (fun c => c == '/')
    if cs = [] then "/"
    else String.mk ((cs.takeWhile (fun c => c != '/')).reverse)

/-- Helper for filepath.Ext: walks the reversed character list until a
separator, returning the extension once the final dot is found. -/
def extRev : List Char → List Char → String
  | [], _ => ""
  | c :: rest, acc =>
    if c = '/' then ""
    else if c = '.' then String.mk ('.' :: acc)
    else extRev rest (c :: acc)

/-- filepath.Ext: the suffix of the final path element beginning at the
final dot, or the empty string. -/
def filepathExt (path : String) : String := extRev path.toList.reverse []

/-- ASCII lowercasing of one character. -/
def lowerChar (c : Char) : Char :=
  if 'A' ≤ c ∧ c ≤ 'Z' then Char.ofNat (c.toNat + 32) else c

/-- strings.ToLower (exact on the ASCII names this code compares). -/
def goToLower (s : String) : String := String.mk (s.toList.map lowerChar)

/-- strings.TrimSpace: leading and trailing whitespace removed. -/
def goTrim (s : String) : String :=
  String.mk (((s.toList.dropWhile Char.isWhitespace).reverse.dropWhile
    Char.isWhitespace).reverse)

/-- One step of splitting a character list at separator characters,
keeping empty pieces. -/
def splitPStep (p : Char → Bool) (c : Char) (acc : List (List Char)) :
    List (List Char) :=
  match acc with
  | [] => if p c then [[], []] else [[c]]
  | piece :: rest => if p c then [] :: piece :: rest else (c :: piece) :: rest

/-- Splits a character list at every separator character, keeping
empty pieces. -/
def splitChars (p : Char → Bool) (cs : List Char) : List (List Char) :=
  cs.foldr (splitPStep p) [[]]

/-- bufio dropCR: removes one trailing carriage return. -/
def dropCRL (cs : List Char) : List Char :=
  if cs.getLast? = some '\r' then cs.dropLast else cs



/-- bufio.Scanner with bufio.ScanLines: the sequence of line tokens of
the content.  Each token is a maximal newline-free run with a trailing
carriage return removed; a final line without newline is still
returned, and empty content yields no token. -/
def goScanLines (cs : List Char) : List String :=
  if cs = [] then []
  else
    let parts := splitChars (fun c => c = '\n') cs
    let parts := if cs.getLast? = some '\n' then parts.dropLast else parts
    parts.map (fun piece => String.mk (dropCRL piece))

/-- strings.Fields: maximal whitespace-free runs of the string. -/
def goFields (s : String) : List String :=
  ((splitChars Char.isWhitespace s.toList).map String.mk).filter (fun t => t ≠ "")

/-- strings.Join(strings.Fields(s), " "): whitespace normalization used
by the HTML scanner's flushLine. -/
def normalizeWS (s : String) : String := goJoin (goFields s) " "

/-! ### Data model (part_002) -/

/-- A single search result inside an epub entry (part_002). -/
structure Match where
  Line : String
  FileName : String
deriving DecidableEq, Repr

/-! ### Text scanner (part_004, scanTextFile) -/

/-- The context window text computed by the second pass of scanTextFile
(part_004 lines 143-145) and by the HTML scanner's emission loop
(lines 229-231): lines in the half-open interval
from max(0, i-k) to min(n, i+k+1), joined by newline.
Go ints are modelled as Int; for k below 0 the Go code would panic on
an inverted slice, so the development only reasons about 0 ≤ k. -/
def windowJoin (lines : List String) (i : Nat) (k : Int) : String :=
  goJoin ((lines.drop (max ((i : Int) - k) 0).toNat).take
    ((min ((i : Int) + k + 1) (lines.length : Int)).toNat -
      (max ((i : Int) - k) 0).toNat)) "\n"

/-- The match-emission loop shared, token for token, by scanTextFile's
second pass (part_004 lines 141-151) and scanHTMLFile's final loop
(lines 227-237): walk the lines with their index, and for every line
matched by the pattern emit one Match holding the trimmed window. -/
def emitFrom (allLines : List String) (p : String → Bool) (fileName : String) (k : Int) :
    Nat → List String → List Match
  | _, [] => []
  | i, line :: rest =>
    (if p line then [⟨goTrim (windowJoin allLines i k), fileName⟩] else []) ++
      emitFrom allLines p fileName k (i + 1) rest

/-- All matches with context windows for a buffered line list. -/
def contextMatches (lines : List String) (p : String → Bool) (fileName : String)
    (k : Int) : List Match :=
  emitFrom lines p fileName k 0 lines

/-- scanTextFile (part_004 lines 86-154) over the scanned line list.
The compiled regex is abstracted as a predicate p.  With no context a
single pass emits each matching line trimmed; otherwise the buffered
two-pass algorithm runs (its first pass also records a matchedLines
set, part_004 lines 117-133, which is never consulted when the matches
are built, so it is omitted here).  Stream read errors cannot occur on
an in-memory line list and are not modelled. -/
def scanTextFile (lines : List String) (p : String → Bool) (fileName : String)
    (contextLines : Int) : List Match :=
  if contextLines = 0 then
    lines.filterMap (fun line =>
      if p line then some ⟨goTrim line, fileName⟩ else none)
  else
    contextMatches lines p fileName contextLines

/-! ### HTML scanner (part_004, scanHTMLFile) -/

/-- Tokens produced by the x/net/html tokenizer (external library,
abstracted): text tokens, the three tag token kinds the scanner
inspects, and a catch-all for token kinds the switch ignores
(comments, doctypes).  The ErrorToken at end of stream is the end of
the list. -/
inductive HTok where
  | text (s : String)
  | startTag (tag : String)
  | endTag (tag : String)
  | selfClosingTag (tag : String)
  | other
deriving DecidableEq, Repr

/-- isBlockLevelTag (part_004 lines 167-174). -/
def isBlockLevelTag (tagName : String) : Bool :=
  tagName = "p" || tagName = "div" || tagName = "br" || tagName = "h1" ||
  tagName = "h2" || tagName = "h3" || tagName = "h4" || tagName = "h5" ||
  tagName = "h6" || tagName = "li" || tagName = "blockquote" ||
  tagName = "hr" || tagName = "pre" || tagName = "tr" || tagName = "table"

/-- flushLine (part_004 lines 177-185): whitespace-normalize the
accumulated text and append it to the logical lines unless empty. -/
def flushAcc (acc : String) (lines : List String) : List String :=
  let line := normalizeWS acc
  if line = "" then lines else lines ++ [line]

/-- The tokenization loop of scanHTMLFile (part_004 lines 188-224):
text tokens are appended to the current line with a separating space;
block-level start, end and self-closing tags flush the current line;
remaining text is flushed at end of stream. -/
def htmlLinesAux : List HTok → String → List String → List String
  | [], acc, lines => flushAcc acc lines
  | HTok.text s :: rest, acc, lines => htmlLinesAux rest (acc ++ " " ++ s) lines
  | HTok.startTag t :: rest, acc, lines =>
    if isBlockLevelTag t then htmlLinesAux rest "" (flushAcc acc lines)
    else htmlLinesAux rest acc lines
  | HTok.endTag t :: rest, acc, lines =>
    if isBlockLevelTag t then htmlLinesAux rest "" (flushAcc acc lines)
    else htmlLinesAux rest acc lines
  | HTok.selfClosingTag t :: rest, acc, lines =>
    if isBlockLevelTag t then htmlLinesAux rest "" (flushAcc acc lines)
    else htmlLinesAux rest acc lines
  | HTok.other :: rest, acc, lines => htmlLinesAux rest acc lines

/-- The logical-line sequence extracted from a token stream. -/
def logicalLines (toks : List HTok) : List String := htmlLinesAux toks "" []

/-- scanHTMLFile (part_004 lines 157-239).  The context is modelled as
a boolean cancellation flag: the Go loop polls ctx.Done() every 100
tokens starting before the first one, so with a constant flag a
cancelled context returns nil at the very first poll and an
uncancelled one is never interrupted. -/
def scanHTMLFile (cancelled : Bool) (toks : List HTok) (p : String → Bool)
    (fileName : String) (contextLines : Int) : List Match :=
  if cancelled then []
  else
    let textLines := logicalLines toks
    emitFrom textLines p fileName contextLines 0 textLines

/-! ### Entry classification (part_004, getFileType / shouldSkipFile) -/

/-- getFileType (part_004 lines 242-252). -/
def getFileType (name : String) : String :=
  let ext := goToLower (filepathExt name)
  if ext = ".txt" then "text"
  else if ext = ".html" || ext = ".xhtml" || ext = ".xml" then "html"
  else ""

/-- The fixed boilerplate basenames skipped by the extractor
(part_004 lines 266-274). -/
def skipFiles : List String :=
  ["cover.xhtml", "toc.xhtml", "titlepage.xhtml", "copyright.xhtml",
   "imprint.xhtml", "dedication.xhtml", "dedication-1.xhtml",
   "license.xhtml", "license-1.xhtml", "colophon.xhtml",
   "about.xhtml", "about-1.xhtml", "acknowledgments.xhtml",
   "appendix.xhtml", "afterword.xhtml", "notes.xhtml",
   "bibliography.xhtml", "index.xhtml", "epilogue.xhtml",
   "glossary.xhtml", "extra.xhtml", "ads.xhtml", "trailer.xhtml"]

/-- Promotional keywords (part_004 line 281). -/
def promoKeywords : List String := ["sample", "advert", "promo", "teaser"]

/-- shouldSkipFile (part_004 lines 255-289). -/
def shouldSkipFile (fileName : String) : Bool :=
  let lowerName := goToLower fileName
  let baseName := goToLower (filepathBase fileName)
  if fileName = "mimetype" || fileName = "META-INF/container.xml" then true
  else if skipFiles.contains baseName then true
  else promoKeywords.any (fun keyword => strContains lowerName keyword)

/-! ### Archive extractor (part_004, grepInEpub) -/

/-- A Go slice, tracking nilness: none is the nil slice, some l a
non-nil slice with elements l. -/
def GoSlice (α : Type) : Type := Option (List α)

/-- The elements of a Go slice (nil has none). -/
def GoSlice.toList {α : Type} (s : GoSlice α) : List α := Option.getD s []

/-- Go append(s, t...): appending zero elements returns s unchanged
(nil stays nil); appending at least one yields a non-nil slice. -/
def goAppend {α : Type} (s : GoSlice α) (t : List α) : GoSlice α :=
  match t with
  | [] => s
  | _ :: _ => some (s.toList ++ t)

/-- An entry of the opened zip archive: its name, whether it is a
directory, its byte content as a string, and whether f.Open()
succeeds (part_004 line 56; a failed open is logged and skipped). -/
structure ZipEntry where
  name : String
  isDir : Bool
  content : String
  openOk : Bool

/-- The error cases of grepInEpub: the zip.OpenReader failure
(part_004 lines 23-29) and the cancellation check (lines 50-54). -/
inductive GrepError where
  | openFailed
  | cancelled
deriving DecidableEq, Repr

/-- The entry loop of grepInEpub (part_004 lines 40-80), folding each
entry into the accumulated match slice.  tok abstracts the external
HTML tokenizer (content bytes to token stream); the cancellation
context is the constant flag checked before opening each eligible
entry.  The Go pair return (matches, err) is the returned pair. -/
def grepEntries (tok : String → List HTok) (cancelled : Bool) (p : String → Bool)
    (contextLines : Int) : List ZipEntry → GoSlice Match → GoSlice Match × Option GrepError
  | [], acc => (acc, none)
  | f :: rest, acc =>
    if f.isDir then grepEntries tok cancelled p contextLines rest acc
    else if shouldSkipFile f.name then grepEntries tok cancelled p contextLines rest acc
    else if cancelled then (none, some GrepError.cancelled)
    else if !f.openOk then grepEntries tok cancelled p contextLines rest acc
    else
      let fileMatches :=
        if getFileType f.name = "text" then
          scanTextFile (goScanLines f.content.toList) p f.name contextLines
        else if getFileType f.name = "html" then
          scanHTMLFile cancelled (tok f.content) p f.name contextLines
        else []
      grepEntries tok cancelled p contextLines rest (goAppend acc fileMatches)

/-- grepInEpub (part_004 lines 19-83).  opened is the outcome of
zip.OpenReader: none when the archive cannot be opened (the error
return), some entries otherwise. -/
def grepInEpub (tok : String → List HTok) (cancelled : Bool)
    (opened : Option (List ZipEntry)) (p : String → Bool) (contextLines : Int) :
    GoSlice Match × Option GrepError :=
  match opened with
  | none => (none, some GrepError.openFailed)
  | some entries => grepEntries tok cancelled p contextLines entries none

/-- Whether the entry loop reaches the scanners for this entry:
not a directory, not in the skip policy, and its in-archive open
succeeds. -/
def eligibleEntry (f : ZipEntry) : Bool :=
  !f.isDir && !shouldSkipFile f.name && f.openOk

/-- The matches one eligible entry contributes (the switch on
getFileType in part_004 lines 65-70). -/
def entryMatches (tok : String → List HTok) (p : String → Bool)
    (contextLines : Int) (f : ZipEntry) : List Match :=
  if getFileType f.name = "text" then
    scanTextFile (goScanLines f.content.toList) p f.name contextLines
  else if getFileType f.name = "html" then
    scanHTMLFile false (tok f.content) p f.name contextLines
  else []

/-! ### Resource pools (pooled_scanner.go, part_000 pooled tokenizer) -/

/-- pooledScanner: the retained token-buffer storage.  reset installs
a fresh bufio.Scanner but hands it the same storage sliced to length
zero, so stale bytes beyond the logical length survive in memory. -/
structure pooledScanner where
  buffer : List Char

/-- Writing data into retained storage: the data occupies the front,
stale storage beyond the written length survives. -/
def fillBuffer (store : List Char) (data : List Char) : List Char :=
  data ++ store.drop data.length

/-- scanTextFile as invoked through the scanner pool (part_004 lines
87-90): the checked-out scanner is reset to the new reader with its
buffer sliced to length zero, the stream is tokenized through that
buffer (only the freshly written region is visible to tokens), and
the scanner is put back with its storage retained. -/
def scanTextFilePooled (ps : pooledScanner) (content : String) (p : String → Bool)
    (fileName : String) (contextLines : Int) : List Match × pooledScanner :=
  let data := content.toList
  let store := fillBuffer ps.buffer data
  let lines := goScanLines (store.take data.length)
  (scanTextFile lines p fileName contextLines, ⟨store⟩)

/-- pooledTokenizer: the three retained buffers (part_000); reset
slices each to length zero while keeping the storage. -/
structure pooledTokenizer where
  textBuffer : List Char
  tagBuffer : List Char
  attrBuffer : List Char

/-- Materialization of the token stream through the pooled buffers:
each text token's bytes and each tag name pass through the retained
storage, only the freshly written region being visible. -/
def matToks : List Char → List Char → List HTok → List HTok × List Char × List Char
  | tbuf, gbuf, [] => ([], tbuf, gbuf)
  | tbuf, gbuf, HTok.text s :: rest =>
    let store := fillBuffer tbuf s.toList
    let t := HTok.text (String.mk (store.take s.toList.length))
    let r := matToks store gbuf rest
    (t :: r.1, r.2)
  | tbuf, gbuf, HTok.startTag s :: rest =>
    let store := fillBuffer gbuf s.toList
    let t := HTok.startTag (String.mk (store.take s.toList.length))
    let r := matToks tbuf store rest
    (t :: r.1, r.2)
  | tbuf, gbuf, HTok.endTag s :: rest =>
    let store := fillBuffer gbuf s.toList
    let t := HTok.endTag (String.mk (store.take s.toList.length))
    let r := matToks tbuf store rest
    (t :: r.1, r.2)
  | tbuf, gbuf, HTok.selfClosingTag s :: rest =>
    let store := fillBuffer gbuf s.toList
    let t := HTok.selfClosingTag (String.mk (store.take s.toList.length))
    let r := matToks tbuf store rest
    (t :: r.1, r.2)
  | tbuf, gbuf, HTok.other :: rest =>
    let r := matToks tbuf gbuf rest
    (HTok.other :: r.1, r.2)

/-- scanHTMLFile as invoked through the tokenizer pool (part_004 lines
158-161): the checked-out tokenizer is reset (buffers truncated to
length zero, storage kept) and put back after the scan. -/
def scanHTMLFilePooled (pt : pooledTokenizer) (toks : List HTok) (p : String → Bool)
    (fileName : String) (contextLines : Int) : List Match × pooledTokenizer :=
  let r := matToks pt.textBuffer pt.tagBuffer toks
  (scanHTMLFile false r.1 p fileName contextLines, ⟨r.2.1, r.2.2, pt.attrBuffer⟩)

/-! ### Pattern cache (part_005)

Go maps keyed by pattern strings are modelled as association lists
with unique keys; map iteration visits the list in order (Go's
iteration order is arbitrary, and the claims only rely on properties
that hold for any order).  Pointer identity of a compiled *Regexp is
modelled by tagging each compilation with a fresh id. -/

/-- A compiled regular expression object: its source pattern plus the
identity of the allocation that produced it. -/
structure GoRegexp where
  pattern : String
  id : Nat
deriving DecidableEq, Repr

/-- Association-map lookup. -/
def mapGet {α : Type} : List (String × α) → String → Option α
  | [], _ => none
  | (k', v') :: rest, k => if k' = k then some v' else mapGet rest k

/-- Association-map store: replaces the binding in place or appends a
new one. -/
def mapPut {α : Type} : List (String × α) → String → α → List (String × α)
  | [], k, v => [(k, v)]
  | (k', v') :: rest, k, v =>
    if k' = k then (k, v) :: rest else (k', v') :: mapPut rest k v

/-- Association-map delete. -/
def mapDel {α : Type} (m : List (String × α)) (k : String) : List (String × α) :=
  m.filter (fun e => e.1 ≠ k)

/-- The key list of an association map. -/
def mapKeys {α : Type} (m : List (String × α)) : List String := m.map (fun e => e.1)

/-- Go m[k]++ on a map with int values: missing keys count as zero. -/
def bumpA (m : List (String × Nat)) (k : String) : List (String × Nat) :=
  mapPut m k ((mapGet m k).getD 0 + 1)

/-- Go's int(^uint(0) >> 1), the maximal 64-bit int, used to seed the
eviction scan.  Counters are modelled as Nat; executions long enough
to overflow a 64-bit counter are outside the model. -/
def goMaxInt : Nat := 9223372036854775807

/-- The eviction scan of part_005 lines 58-65: keep the entry with the
strictly smallest count seen so far. -/
def minFold : (String × Nat) → List (String × Nat) → (String × Nat)
  | best, [] => best
  | best, e :: rest => minFold (if e.2 < best.2 then e else best) rest

/-- The pattern chosen for eviction: the accesses entry with the
lowest count (first one in iteration order on ties), seeded with the
empty pattern and a maximal count. -/
def evictMin (accesses : List (String × Nat)) : String :=
  (minFold ("", goMaxInt) accesses).1

/-- regexCache (part_005 lines 10-15) together with the allocation
counter that models pointer identity of compiled objects. -/
structure regexCache where
  cache : List (String × GoRegexp)
  accesses : List (String × Nat)
  maxSize : Nat
  nextId : Nat

/-- newRegexCache (part_005 lines 18-24). -/
def newRegexCache (maxSize : Nat) : regexCache :=
  { cache := [], accesses := [], maxSize := maxSize, nextId := 0 }

/-- get (part_005 lines 27-75), sequentially: on a hit the cached
object is returned and its access count incremented; on a miss the
pattern is compiled (compileOk abstracts regexp.Compile succeeding),
a compile failure returns the error with the cache untouched, and a
successful compile first evicts the lowest-count entry when the cache
is at capacity, then stores the new entry with count 1.  The
double-checked read under the write lock coincides with the first
read in this sequential model. -/
def rcGet (compileOk : String → Bool) (rc : regexCache) (pattern : String) :
    Except Unit GoRegexp × regexCache :=
  match mapGet rc.cache pattern with
  | some re => (Except.ok re, { rc with accesses := bumpA rc.accesses pattern })
  | none =>
    if compileOk pattern then
      let re : GoRegexp := ⟨pattern, rc.nextId⟩
      let rc' :=
        if rc.maxSize ≤ rc.cache.length then
          let lru := evictMin rc.accesses
          { rc with cache := mapDel rc.cache lru, accesses := mapDel rc.accesses lru }
        else rc
      (Except.ok re,
       { rc' with cache := mapPut rc'.cache pattern re,
                  accesses := mapPut rc'.accesses pattern 1,
                  nextId := rc.nextId + 1 })
    else (Except.error (), rc)

/-- A sequence of sequential get calls against a fresh cache. -/
def rcRun (compileOk : String → Bool) (maxSize : Nat) (pats : List String) : regexCache :=
  pats.foldl (fun rc pat => (rcGet compileOk rc pat).2) (newRegexCache maxSize)

/-! ### Search validation (part_002, Search lines 222-244) -/

/-- The characters regexp.QuoteMeta escapes (regexp/syntax special
bytes). -/
def isRegexSpecial (c : Char) : Bool :=
  c == '\\' || c == '.' || c == '+' || c == '*' || c == '?' || c == '(' ||
  c == ')' || c == '|' || c == '[' || c == ']' || c == Char.ofNat 123 ||
  c == Char.ofNat 125 || c == '^' || c == '$'

/-- regexp.QuoteMeta: a backslash is inserted before every special
character. -/
def quoteMeta (s : String) : String :=
  String.mk (List.flatten (s.toList.map
    (fun c => if isRegexSpecial c then ['\\', c] else [c])))

/-- Reads a pattern that is a pure literal: every special character
appears escaped and nothing else is escaped; yields the denoted
literal characters, or none when the pattern contains an unescaped
metacharacter or a non-trivial escape.  Such a pattern matches a
subject exactly where the literal occurs. -/
def literalAux : List Char → Option (List Char)
  | [] => some []
  | c :: rest =>
    if c = '\\' then
      match rest with
      | [] => none
      | d :: rest' =>
        if isRegexSpecial d then (literalAux rest').map (fun l => d :: l) else none
    else if isRegexSpecial c then none
    else (literalAux rest).map (fun l => c :: l)

/-- String form of literalAux. -/
def literalOfQuoted (s : String) : Option String := (literalAux s.toList).map String.mk

/-- SearchRequestRegex (part_002). -/
structure SearchRequestRegex where
  Pattern : String
deriving DecidableEq, Repr

/-- SearchRequestText (part_002). -/
structure SearchRequestText where
  Value : String
  IgnoreCase : Bool
deriving DecidableEq, Repr

/-- SearchRequestQuery (part_002). -/
structure SearchRequestQuery where
  Regex : Option SearchRequestRegex
  IsRegex : Bool
  Text : Option SearchRequestText
deriving DecidableEq, Repr

/-- The two fatal pattern-phase errors of Search: the missing-sub-spec
validation failures (part_002 lines 226, 232) and the pattern
compilation failure (line 243). -/
inductive SearchError where
  | invalidQuery
  | invalidPattern
deriving DecidableEq, Repr

/-- The query-validation and pattern-building phase of Search
(part_002 lines 222-239): regex mode requires the regex sub-spec and
uses its pattern verbatim; text mode requires the text sub-spec,
quotes its value to a literal and prepends the case-insensitivity
marker when requested. -/
def buildPattern (q : SearchRequestQuery) : Except SearchError String :=
  if q.IsRegex then
    match q.Regex with
    | none => Except.error SearchError.invalidQuery
    | some r => Except.ok r.Pattern
  else
    match q.Text with
    | none => Except.error SearchError.invalidQuery
    | some t =>
      Except.ok ((if t.IgnoreCase then "(?i)" else "") ++ quoteMeta t.Value)

/-- Validation followed by compilation through the pattern cache
(part_002 lines 241-244); compileOk abstracts regexp compilation
succeeding. -/
def searchPrepare (compileOk : String → Bool) (q : SearchRequestQuery) :
    Except SearchError String :=
  match buildPattern q with
  | Except.error e => Except.error e
  | Except.ok pat =>
    if compileOk pat then Except.ok pat else Except.error SearchError.invalidPattern

/-! ### Metadata (part_000, part_002) -/

/-- Metadata (part_002 lines 58-79).  The float64 series position is
modelled as a rational, the identifier map as an association list. -/
structure Metadata where
  Title : String
  Authors : List String
  Genres : List String
  Series : String
  SeriesPosition : Rat
  YearReleased : Int
  Identifiers : List (String × String)
deriving DecidableEq, Repr

/-- The zero value of Metadata (var metadata Metadata). -/
def zeroMetadata : Metadata :=
  { Title := "", Authors := [], Genres := [], Series := "",
    SeriesPosition := 0, YearReleased := 0, Identifiers := [] }

/-- Digits of an ASCII decimal numeral, or none when empty or not all
digits. -/
def digitsToNat? (cs : List Char) : Option Nat :=
  if cs = [] then none
  else if cs.all Char.isDigit then
    some (cs.foldl (fun a c => a * 10 + (c.toNat - 48)) 0)
  else none

/-- strconv.Atoi: an optional sign followed by at least one digit,
consuming the whole string.  (Overflow of a 64-bit int cannot occur
on the at most four characters this development feeds it.) -/
def goAtoi (s : String) : Option Int :=
  match s.toList with
  | '+' :: ds => (digitsToNat? ds).map Int.ofNat
  | '-' :: ds => (digitsToNat? ds).map (fun n => -(Int.ofNat n))
  | ds => (digitsToNat? ds).map Int.ofNat

/-- Reads exactly two ASCII digits. -/
def parse2 : List Char → Option (Nat × List Char)
  | a :: b :: rest =>
    if a.isDigit && b.isDigit then
      some ((a.toNat - 48) * 10 + (b.toNat - 48), rest)
    else none
  | _ => none

/-- Consumes one expected character. -/
def expectChar (c : Char) : List Char → Option (List Char)
  | d :: rest => if d = c then some rest else none
  | [] => none

/-- Gregorian leap year. -/
def isLeap (y : Nat) : Bool := y % 4 = 0 && (y % 100 ≠ 0 || y % 400 = 0)

/-- Days in a month, leap years included. -/
def daysInMonth (y : Nat) (m : Nat) : Nat :=
  if m = 2 then (if isLeap y then 29 else 28)
  else if m = 4 || m = 6 || m = 9 || m = 11 then 30
  else 31

/-- Optional fractional seconds: a dot followed by at least one
digit. -/
def parseFrac : List Char → Option (List Char)
  | '.' :: rest =>
    if rest.takeWhile Char.isDigit = [] then none
    else some (rest.dropWhile Char.isDigit)
  | cs => some cs

/-- The timezone tail of the RFC 3339 layout: Z, or a signed
hour-minute offset, ending the string. -/
def parseZone : List Char → Bool
  | ['Z'] => true
  | s :: h1 :: h2 :: ':' :: m1 :: m2 :: [] =>
    (s = '+' || s = '-') && h1.isDigit && h2.isDigit && m1.isDigit && m2.isDigit &&
    ((h1.toNat - 48) * 10 + (h2.toNat - 48) ≤ 23) &&
    ((m1.toNat - 48) * 10 + (m2.toNat - 48) ≤ 59)
  | _ => false

/-- The dashed calendar date of the RFC 3339 layout: four-digit year,
range-checked month and day (leap years included); yields the year
and the rest of the input. -/
def parseDatePart (cs : List Char) : Option (Nat × List Char) :=
  match parse2 cs with
  | none => none
  | some (yh, cs1) =>
    match parse2 cs1 with
    | none => none
    | some (yl, cs2) =>
      match expectChar '-' cs2 with
      | none => none
      | some cs3 =>
        match parse2 cs3 with
        | none => none
        | some (mo, cs4) =>
          match expectChar '-' cs4 with
          | none => none
          | some cs5 =>
            match parse2 cs5 with
            | none => none
            | some (dy, cs6) =>
              let year := yh * 100 + yl
              if 1 ≤ mo ∧ mo ≤ 12 ∧ 1 ≤ dy ∧ dy ≤ daysInMonth year mo then
                some (year, cs6)
              else none

/-- The clock part of the RFC 3339 layout: colon-separated
range-checked hour, minute and second; yields the rest of the
input. -/
def parseClockPart (cs : List Char) : Option (List Char) :=
  match parse2 cs with
  | none => none
  | some (hh, cs1) =>
    match expectChar ':' cs1 with
    | none => none
    | some cs2 =>
      match parse2 cs2 with
      | none => none
      | some (mi, cs3) =>
        match expectChar ':' cs3 with
        | none => none
        | some cs4 =>
          match parse2 cs4 with
          | none => none
          | some (ss, cs5) =>
            if hh ≤ 23 ∧ mi ≤ 59 ∧ ss ≤ 59 then some cs5 else none

/-- time.Parse with the time.RFC3339 layout, reduced to the year it
yields: the dashed date, a literal T, the clock, optional fractional
seconds, and a Z or signed offset ending the string; the parsed year
is the year of the result regardless of offset. -/
def parseRFC3339Year (s : String) : Option Int :=
  match parseDatePart s.toList with
  | none => none
  | some (year, cs1) =>
    match expectChar 'T' cs1 with
    | none => none
    | some cs2 =>
      match parseClockPart cs2 with
      | none => none
      | some cs3 =>
        match parseFrac cs3 with
        | none => none
        | some cs4 => if parseZone cs4 then some (Int.ofNat year) else none

/-- The date handling of ProcessFile (part_000 lines 678-687): an
empty date leaves the year zero; otherwise the full timestamp format
is tried first, and on failure a string of at least four characters
has its first four characters parsed as the year, unparseable input
leaving zero. -/
def yearFromDate (date : String) : Int :=
  if date = "" then 0
  else
    match parseRFC3339Year date with
    | some y => y
    | none =>
      if 4 ≤ date.toList.length then
        match goAtoi (String.mk (date.toList.take 4)) with
        | some y => y
        | none => 0
      else 0

/-! ### Metadata filters and the worker's delivery decision
(part_002 lines 306-333, part_004 matchesMetadataFilters) -/

/-- SearchRequestFilters (part_002 lines 31-43). -/
structure SearchRequestFilters where
  AuthorEquals : String
  SeriesEquals : String
  TitleEquals : String
  FilesIn : List String
deriving DecidableEq, Repr

/-- strings.EqualFold, modelled as case-insensitive equality via
lowercasing (exact for the ASCII data these filters compare). -/
def goEqualFold (a b : String) : Bool := goToLower a = goToLower b

/-- matchesMetadataFilters (part_004 lines 292-322). -/
def matchesMetadataFilters (metadata : Metadata) (filters : SearchRequestFilters) : Bool :=
  if filters.AuthorEquals ≠ "" &&
      !(metadata.Authors.any (fun author => goEqualFold author filters.AuthorEquals)) then
    false
  else if filters.SeriesEquals ≠ "" &&
      !(goEqualFold metadata.Series filters.SeriesEquals) then
    false
  else if filters.TitleEquals ≠ "" &&
      !(goEqualFold metadata.Title filters.TitleEquals) then
    false
  else true

/-- SearchResult (part_002 lines 160-169). -/
structure SearchResult where
  Path : String
  Metadata : Metadata
  Matches : List Match
deriving DecidableEq, Repr

/-- The per-path tail of the Search worker (part_002 lines 306-333):
with at least one match, metadata starts at its zero value and is
replaced by the extractor's output when extraction is enabled (an
extraction error skips the path, modelled by extracted = none); the
metadata filters are applied only when filters were provided and
extraction is enabled; surviving paths yield the delivered result.
none is a path for which the handler is not invoked. -/
def deliverResult (extractMetadata : Bool) (filters : Option SearchRequestFilters)
    (path : String) (found : List Match) (extracted : Option Metadata) :
    Option SearchResult :=
  if 0 < found.length then
    let md? : Option Metadata := if extractMetadata then extracted else some zeroMetadata
    match md? with
    | none => none
    | some metadata =>
      let rejected :=
        match filters with
        | some fl => extractMetadata && !(matchesMetadataFilters metadata fl)
        | none => false
      if rejected then none else some ⟨path, metadata, found⟩
  else none

/-! ### Spec-side window formula (spec.md §4.3, §8) -/

/-- The specified emission: for every line index whose line matches,
exactly one Match whose text is the window of lines from
max(0, i-k) to min(n, i+k+1) joined by newline and trimmed, in line
order. -/
def windowSpec (lines : List String) (p : String → Bool) (fileName : String)
    (k : Int) : List Match :=
  (List.range lines.length).filterMap (fun i =>
    if p (lines.getD i "") then some ⟨goTrim (windowJoin lines i k), fileName⟩ else none)

/-! ### Lemmas about the scanners -/

lemma drop_cons_succ {α : Type} (l : List α) (x : α) (xs : List α) (n : Nat)
    (h : l.drop n = x :: xs) : l.drop (n + 1) = xs := by
  have h2 := List.drop_drop 1 n l
  rw [← h2, h]
  rfl

lemma lt_length_of_drop_cons {α : Type} (l : List α) (x : α) (xs : List α) (n : Nat)
    (h : l.drop n = x :: xs) : n < l.length := by
  by_contra h2
  rw [List.drop_eq_nil_of_le (Nat.le_of_not_lt h2)] at h
  exact List.noConfusion h

lemma getD_of_drop (l : List String) (i : Nat) (x : String) (xs : List String)
    (h : l.drop i = x :: xs) : l.getD i "" = x := by
  induction l generalizing i x xs with
  | nil => simp at h
  | cons y ys ih =>
    cases i with
    | zero => simp at h; simp [h.1]
    | succ n =>
      simp only [List.drop_succ_cons] at h
      simpa using ih n x xs h

/-- At every in-range index the zero-context window is the line itself. -/
lemma windowJoin_zero (lines : List String) (i : Nat) (line : String)
    (rest : List String) (h : lines.drop i = line :: rest) :
    windowJoin lines i 0 = line := by
  have hi : i < lines.length := lt_length_of_drop_cons _ _ _ _ h
  have hs : (max ((i : Int) - 0) 0).toNat = i := by omega
  have he : (min ((i : Int) + 0 + 1) (lines.length : Int)).toNat = i + 1 := by omega
  unfold windowJoin
  rw [hs, he]
  have h1 : i + 1 - i = 1 := by omega
  rw [h1, h]
  rfl

/-- The emission loop computes the specified per-index window matches. -/
lemma emitFrom_eq_spec (allLines : List String) (p : String → Bool) (name : String)
    (k : Int) :
    ∀ (suffix : List String) (i : Nat), allLines.drop i = suffix →
      emitFrom allLines p name k i suffix =
        (List.range suffix.length).filterMap (fun j =>
          if p (allLines.getD (i + j) "") then
            some ⟨goTrim (windowJoin allLines (i + j) k), name⟩
          else none) := by
  intro suffix
  induction suffix with
  | nil => intro i _; rfl
  | cons line rest ih =>
    intro i h
    have hline : allLines.getD i "" = line := getD_of_drop _ _ _ _ h
    have hrest : allLines.drop (i + 1) = rest := drop_cons_succ _ _ _ _ h
    have hih := ih (i + 1) hrest
    have hstep : emitFrom allLines p name k i (line :: rest) =
        (if p line then [Match.mk (goTrim (windowJoin allLines i k)) name] else []) ++
          emitFrom allLines p name k (i + 1) rest := rfl
    rw [hstep, hih, List.length_cons, List.range_succ_eq_map, List.filterMap_cons,
      List.filterMap_map]
    have e3 : ((fun j => if p (allLines.getD (i + j) "") then
          some (Match.mk (goTrim (windowJoin allLines (i + j) k)) name) else none) ∘
          Nat.succ) =
        (fun j => if p (allLines.getD (i + 1 + j) "") then
          some (Match.mk (goTrim (windowJoin allLines (i + 1 + j) k)) name) else none) := by
      funext j
      have heq : i + Nat.succ j = i + 1 + j := by omega
      simp only [Function.comp_apply, heq]
    rw [e3]
    have hline' : (allLines[i]?).getD "" = line := by
      rw [← List.getD_eq_getElem?_getD]
      exact hline
    cases hp : p line
    · simp [Nat.add_zero, hline', hp]
    · simp [Nat.add_zero, hline', hp]

/-- contextMatches is the specified window formula. -/
lemma contextMatches_eq_spec (lines : List String) (p : String → Bool)
    (name : String) (k : Int) :
    contextMatches lines p name k = windowSpec lines p name k := by
  unfold contextMatches windowSpec
  have h := emitFrom_eq_spec lines p name k lines 0 (by simp)
  rw [h]
  exact List.filterMap_congr (by intro j _; rw [Nat.zero_add])

/-- With zero context the emission loop reduces to the per-line fast
path: each matching line becomes its own trimmed Match. -/
lemma emitFrom_zero_fastpath (allLines : List String) (p : String → Bool)
    (name : String) :
    ∀ (suffix : List String) (i : Nat), allLines.drop i = suffix →
      emitFrom allLines p name 0 i suffix =
        suffix.filterMap (fun line => if p line then some ⟨goTrim line, name⟩ else none) := by
  intro suffix
  induction suffix with
  | nil => intro i _; rfl
  | cons line rest ih =>
    intro i h
    have hw := windowJoin_zero allLines i line rest h
    have hrest := drop_cons_succ _ _ _ _ h
    simp only [emitFrom, List.filterMap_cons, hw, ih (i + 1) hrest]
    by_cases hp : p line <;> simp [hp]

/-- The zero-context fast path of scanTextFile agrees with the window
formula. -/
lemma scanTextFile_zero_eq_spec (lines : List String) (p : String → Bool)
    (name : String) :
    scanTextFile lines p name 0 = windowSpec lines p name 0 := by
  rw [← contextMatches_eq_spec]
  unfold scanTextFile contextMatches
  rw [if_pos rfl]
  exact (emitFrom_zero_fastpath lines p name lines 0 (by simp)).symm

/-- scanTextFile computes the window formula for every context. -/
lemma scanTextFile_eq_spec (lines : List String) (p : String → Bool)
    (name : String) (k : Int) :
    scanTextFile lines p name k = windowSpec lines p name k := by
  by_cases h0 : k = 0
  · subst h0; exact scanTextFile_zero_eq_spec lines p name
  · unfold scanTextFile
    rw [if_neg h0]
    exact contextMatches_eq_spec lines p name k

/-! ### Lemmas about the resource pools -/

/-- Only the freshly written region of a reused buffer is visible. -/
lemma take_fillBuffer (store data : List Char) :
    (fillBuffer store data).take data.length = data := by
  unfold fillBuffer
  exact List.take_left data _

/-- String form of take_fillBuffer. -/
lemma take_fillBuffer_str (store : List Char) (s : String) :
    String.mk ((fillBuffer store s.data).take s.length) = s := by
  have h : s.length = s.data.length := rfl
  rw [h, take_fillBuffer]

/-- Materializing tokens through reused pool buffers reproduces the
token stream exactly, whatever the buffers previously held. -/
lemma matToks_fst (tbuf gbuf : List Char) (toks : List HTok) :
    (matToks tbuf gbuf toks).1 = toks := by
  induction toks generalizing tbuf gbuf with
  | nil => rfl
  | cons t rest ih =>
    cases t with
    | text s => simp [matToks, take_fillBuffer_str, ih]
    | startTag s => simp [matToks, take_fillBuffer_str, ih]
    | endTag s => simp [matToks, take_fillBuffer_str, ih]
    | selfClosingTag s => simp [matToks, take_fillBuffer_str, ih]
    | other => simp [matToks, ih]

/-- The pooled text scan returns the pure function of the content. -/
lemma scanTextFilePooled_fst (ps : pooledScanner) (content : String)
    (p : String → Bool) (name : String) (k : Int) :
    (scanTextFilePooled ps content p name k).1 =
      scanTextFile (goScanLines content.toList) p name k := by
  simp only [scanTextFilePooled]
  rw [take_fillBuffer]

/-- The pooled HTML scan returns the pure function of the tokens. -/
lemma scanHTMLFilePooled_fst (pt : pooledTokenizer) (toks : List HTok)
    (p : String → Bool) (name : String) (k : Int) :
    (scanHTMLFilePooled pt toks p name k).1 =
      scanHTMLFile false toks p name k := by
  simp only [scanHTMLFilePooled]
  rw [matToks_fst]

/-! ### Lemmas about the archive extractor -/

/-- Two successive Go appends collapse into one. -/
lemma goAppend_append (acc : GoSlice Match) (t1 t2 : List Match) :
    goAppend (goAppend acc t1) t2 = goAppend acc (t1 ++ t2) := by
  cases t1 with
  | nil => simp [goAppend]
  | cons a t1' =>
    cases t2 with
    | nil => simp [goAppend]
    | cons b t2' => simp [goAppend, GoSlice.toList]

/-- Without cancellation the entry loop aggregates, in entry order,
the matches of every eligible entry onto the accumulator and reports
no error. -/
lemma grepEntries_ok (tok : String → List HTok) (p : String → Bool) (k : Int) :
    ∀ (entries : List ZipEntry) (acc : GoSlice Match),
      grepEntries tok false p k entries acc =
        (goAppend acc ((entries.filter eligibleEntry).flatMap (entryMatches tok p k)),
          none) := by
  intro entries
  induction entries with
  | nil => intro acc; rfl
  | cons f rest ih =>
    intro acc
    by_cases hd : f.isDir
    · have he : eligibleEntry f = false := by simp [eligibleEntry, hd]
      simp [grepEntries, hd, he, ih]
    · by_cases hs : shouldSkipFile f.name
      · have he : eligibleEntry f = false := by simp [eligibleEntry, hs]
        simp [grepEntries, hd, hs, he, ih]
      · by_cases ho : f.openOk
        · have he : eligibleEntry f = true := by simp [eligibleEntry, hd, hs, ho]
          simp only [grepEntries, hd, hs, ho, Bool.false_eq_true, if_false,
            Bool.not_true, if_true, ite_false, ite_true]
          rw [ih, List.filter_cons_of_pos (by simp [he]), List.flatMap_cons,
            ← goAppend_append]
          rfl
        · have he : eligibleEntry f = false := by simp [eligibleEntry, ho]
          simp [grepEntries, hd, hs, ho, he, ih]

/-- A reported error can only come from the cancellation branch, and
then the match slice is nil. -/
lemma grepEntries_err (tok : String → List HTok) (cancelled : Bool)
    (p : String → Bool) (k : Int) :
    ∀ (entries : List ZipEntry) (acc : GoSlice Match),
      (grepEntries tok cancelled p k entries acc).2 ≠ none →
        (grepEntries tok cancelled p k entries acc).1 = none ∧ cancelled = true := by
  intro entries
  induction entries with
  | nil => intro acc h; exact absurd rfl h
  | cons f rest ih =>
    intro acc h
    by_cases hd : f.isDir
    · rw [show grepEntries tok cancelled p k (f :: rest) acc =
          grepEntries tok cancelled p k rest acc by simp [grepEntries, hd]] at h ⊢
      exact ih acc h
    · by_cases hs : shouldSkipFile f.name
      · rw [show grepEntries tok cancelled p k (f :: rest) acc =
            grepEntries tok cancelled p k rest acc by simp [grepEntries, hd, hs]] at h ⊢
        exact ih acc h
      · by_cases hc : cancelled
        · subst hc
          rw [show grepEntries tok true p k (f :: rest) acc =
              (none, some GrepError.cancelled) by simp [grepEntries, hd, hs]] at h ⊢
          exact ⟨rfl, rfl⟩
        · have hc' : cancelled = false := by simpa using hc
          subst hc'
          by_cases ho : f.openOk
          · rw [show grepEntries tok false p k (f :: rest) acc =
                grepEntries tok false p k rest (goAppend acc
                  (if getFileType f.name = "text" then
                    scanTextFile (goScanLines f.content.toList) p f.name k
                  else if getFileType f.name = "html" then
                    scanHTMLFile false (tok f.content) p f.name k
                  else [])) by simp [grepEntries, hd, hs, ho]] at h ⊢
            exact ih _ h
          · rw [show grepEntries tok false p k (f :: rest) acc =
                grepEntries tok false p k rest acc by simp [grepEntries, hd, hs, ho]] at h ⊢
            exact ih acc h

/-! ### Claim theorems -/

/-- Claim C1: for every line sequence of length n, every context count
k ≥ 0 and every line index i whose line matches the pattern, the text
scanner — and the HTML scanner's match-emission phase over its logical
lines — emits exactly one Match per matching index, in line order,
whose text is the lines of the half-open window from max(0, i-k) to
min(n, i+k+1) joined by newline and trimmed (windowSpec); adjacent
matching lines each get their own independently computed window. -/
theorem claim_C1 (lines : List String) (toks : List HTok) (p : String → Bool)
    (name : String) (k : Int) (_hk : 0 ≤ k) :
    scanTextFile lines p name k = windowSpec lines p name k ∧
    scanHTMLFile false toks p name k = windowSpec (logicalLines toks) p name k := by
  constructor
  · exact scanTextFile_eq_spec lines p name k
  · have h : scanHTMLFile false toks p name k =
        contextMatches (logicalLines toks) p name k := rfl
    rw [h]
    exact contextMatches_eq_spec (logicalLines toks) p name k

/-- Witness for C1: the hypothesis 0 ≤ 1 holds and the theorem applies
to a concrete file. -/
theorem claim_C1_witness :
    (0 : Int) ≤ 1 ∧
    (scanTextFile ["intro", "the hit line", "outro"]
        (fun l => strContains l "hit") "ch1.txt" 1 =
      windowSpec ["intro", "the hit line", "outro"]
        (fun l => strContains l "hit") "ch1.txt" 1 ∧
    scanHTMLFile false [HTok.text "the hit line", HTok.startTag "p", HTok.text "outro"]
        (fun l => strContains l "hit") "ch1.txt" 1 =
      windowSpec (logicalLines [HTok.text "the hit line", HTok.startTag "p", HTok.text "outro"])
        (fun l => strContains l "hit") "ch1.txt" 1) :=
  ⟨by decide,
   claim_C1 ["intro", "the hit line", "outro"]
     [HTok.text "the hit line", HTok.startTag "p", HTok.text "outro"]
     (fun l => strContains l "hit") "ch1.txt" 1 (by decide)⟩

/-- Counterexample to C3 as stated: an archive that opens fine and
has no matching entry returns the nil slice, not a non-nil empty
result set — here, an archive with no entries at all yields
(nil, nil), and the nil slice is not the non-nil empty slice. -/
theorem claim_C3_counterexample :
    grepInEpub (fun _ => []) false (some []) (fun _ => true) 0 = (none, none) ∧
    (none : GoSlice Match) ≠ some [] :=
  ⟨rfl, fun h => Option.noConfusion h⟩

/-- Claim C3 (amended): grepInEpub returns a non-nil error only when
the archive cannot be opened or cancellation is observed, and in
those cases the match list is nil; an archive opened without
cancellation returns a nil error, with the matches of the eligible
entries aggregated in entry order — in particular, when no entry
matches, the returned result set is empty, represented by the nil
slice. -/
theorem claim_C3 (tok : String → List HTok) (p : String → Bool) (k : Int) :
    (∀ (cancelled : Bool) (opened : Option (List ZipEntry)),
      (grepInEpub tok cancelled opened p k).2 ≠ none →
        (grepInEpub tok cancelled opened p k).1 = none ∧
          (opened = none ∨ cancelled = true)) ∧
    (∀ entries : List ZipEntry,
      grepInEpub tok false (some entries) p k =
        (goAppend none ((entries.filter eligibleEntry).flatMap (entryMatches tok p k)),
          none)) ∧
    (∀ entries : List ZipEntry,
      (entries.filter eligibleEntry).flatMap (entryMatches tok p k) = [] →
        (grepInEpub tok false (some entries) p k).1 = none) := by
  refine ⟨?_, ?_, ?_⟩
  · intro cancelled opened h
    cases opened with
    | none => exact ⟨rfl, Or.inl rfl⟩
    | some entries =>
      have h2 := grepEntries_err tok cancelled p k entries none h
      exact ⟨h2.1, Or.inr h2.2⟩
  · intro entries
    have hgrep : grepInEpub tok false (some entries) p k =
        grepEntries tok false p k entries none := rfl
    rw [hgrep]
    exact grepEntries_ok tok p k entries none
  · intro entries hempty
    have hgrep : grepInEpub tok false (some entries) p k =
        grepEntries tok false p k entries none := rfl
    rw [hgrep, grepEntries_ok tok p k entries none, hempty]
    rfl

/-- Witness for C3 at concrete inputs: a cancelled run over an archive
with one eligible unmatched entry reports an error with a nil match
list, and an uncancelled run over the same archive yields the nil
slice and no error. -/
theorem claim_C3_witness :
    ((grepInEpub (fun _ => []) true (some [⟨"ch1.txt", false, "no", true⟩])
        (fun l => strContains l "hit") 0).1 = none ∧
      ((some [⟨"ch1.txt", false, "no", true⟩] : Option (List ZipEntry)) = none ∨
        true = true)) ∧
    (grepInEpub (fun _ => []) false (some [⟨"ch1.txt", false, "no", true⟩])
        (fun l => strContains l "hit") 0).1 = none :=
  ⟨(claim_C3 (fun _ => []) (fun l => strContains l "hit") 0).1 true
      (some [⟨"ch1.txt", false, "no", true⟩]) (by decide),
   (claim_C3 (fun _ => []) (fun l => strContains l "hit") 0).2.2
      [⟨"ch1.txt", false, "no", true⟩] (by decide)⟩

/-- Claim C6: for every token stream, the HTML scanner's matching
phase is the text scanner's context algorithm applied to the
normalizer's logical-line sequence (same window formula), the emitted
FileName being the archive entry name. -/
theorem claim_C6 (toks : List HTok) (p : String → Bool) (entryName : String)
    (k : Int) (_hk : 0 ≤ k) :
    scanHTMLFile false toks p entryName k =
      scanTextFile (logicalLines toks) p entryName k := by
  have h : scanHTMLFile false toks p entryName k =
      contextMatches (logicalLines toks) p entryName k := rfl
  rw [h, contextMatches_eq_spec, scanTextFile_eq_spec]

/-- Witness for C6: the hypothesis 0 ≤ 0 holds and the theorem applies
to a concrete token stream. -/
theorem claim_C6_witness :
    (0 : Int) ≤ 0 ∧
    scanHTMLFile false
        [HTok.startTag "p", HTok.text "a ", HTok.text " hit", HTok.endTag "p",
         HTok.text "tail"]
        (fun l => strContains l "hit") "ch2.xhtml" 0 =
      scanTextFile
        (logicalLines
          [HTok.startTag "p", HTok.text "a ", HTok.text " hit", HTok.endTag "p",
           HTok.text "tail"])
        (fun l => strContains l "hit") "ch2.xhtml" 0 :=
  ⟨by decide,
   claim_C6
     [HTok.startTag "p", HTok.text "a ", HTok.text " hit", HTok.endTag "p",
      HTok.text "tail"]
     (fun l => strContains l "hit") "ch2.xhtml" 0 (by decide)⟩

/-- Claim C7: text and HTML scanning are deterministic pure functions
of (content, pattern, entry name, context): runs through the pools
return exactly the pure-function value, so two runs on identical
inputs — whatever content the pooled scanner or tokenizer buffers
previously carried — return identical Match sequences. -/
theorem claim_C7 (ps₁ ps₂ : pooledScanner) (pt₁ pt₂ : pooledTokenizer)
    (content : String) (toks : List HTok) (p : String → Bool) (name : String)
    (k : Int) :
    (scanTextFilePooled ps₁ content p name k).1 =
      scanTextFile (goScanLines content.toList) p name k ∧
    (scanHTMLFilePooled pt₁ toks p name k).1 =
      scanHTMLFile false toks p name k ∧
    (scanTextFilePooled ps₁ content p name k).1 =
      (scanTextFilePooled ps₂ content p name k).1 ∧
    (scanHTMLFilePooled pt₁ toks p name k).1 =
      (scanHTMLFilePooled pt₂ toks p name k).1 := by
  refine ⟨scanTextFilePooled_fst ps₁ content p name k,
          scanHTMLFilePooled_fst pt₁ toks p name k, ?_, ?_⟩
  · rw [scanTextFilePooled_fst ps₁ content p name k,
      scanTextFilePooled_fst ps₂ content p name k]
  · rw [scanHTMLFilePooled_fst pt₁ toks p name k,
      scanHTMLFilePooled_fst pt₂ toks p name k]

/-! ### Lemmas about pattern quoting -/

/-- Quoting escapes exactly the special characters, and reading the
quoted pattern back as a pure literal recovers the original
characters. -/
lemma literalAux_quote (cs : List Char) :
    literalAux (List.flatten (cs.map
      (fun c => if isRegexSpecial c then ['\\', c] else [c]))) = some cs := by
  induction cs with
  | nil => rfl
  | cons c rest ih =>
    by_cases hc : isRegexSpecial c
    · simp only [List.map_cons, List.flatten_cons, hc, if_true, List.cons_append,
        List.nil_append]
      simp [literalAux, hc, ih]
    · have hbs : ¬(c = '\\') := by
        intro h
        rw [h] at hc
        exact hc (by decide)
      have e1 : ∀ tail, literalAux (c :: tail) =
          (literalAux tail).map (fun l => c :: l) := by
        intro tail
        cases tail with
        | nil =>
          simp only [literalAux]
          rw [if_neg hbs, if_neg hc]
        | cons d rest2 =>
          simp only [literalAux]
          rw [if_neg hbs, if_neg hc]
      rw [List.map_cons, List.flatten_cons, if_neg hc, List.singleton_append, e1, ih]
      rfl

/-- The literal reading of a quoted value is the value itself: the
quoted pattern contains no unescaped metacharacter and denotes the
original string verbatim. -/
lemma literalOfQuoted_quoteMeta (s : String) :
    literalOfQuoted (quoteMeta s) = some s := by
  unfold literalOfQuoted quoteMeta
  rw [show (String.mk (List.flatten (s.toList.map
      (fun c => if isRegexSpecial c then ['\\', c] else [c])))).toList =
    List.flatten (s.toList.map
      (fun c => if isRegexSpecial c then ['\\', c] else [c])) from rfl]
  rw [literalAux_quote]
  rfl

/-- Claim C5: Search fails with the invalid-query error exactly when
a regex-mode request has no regex sub-spec or a text-mode request has
no text sub-spec; a validated text-mode request builds the pattern by
quoting the value to a pure literal — reading the quoted pattern back
as a literal recovers exactly the value — with the case-insensitivity
marker prepended precisely when IgnoreCase is set. -/
theorem claim_C5 (compileOk : String → Bool) (q : SearchRequestQuery) :
    (searchPrepare compileOk q = Except.error SearchError.invalidQuery ↔
      (q.IsRegex = true ∧ q.Regex = none) ∨ (q.IsRegex = false ∧ q.Text = none)) ∧
    (∀ t : SearchRequestText, q.IsRegex = false → q.Text = some t →
      buildPattern q =
        Except.ok ((if t.IgnoreCase then "(?i)" else "") ++ quoteMeta t.Value) ∧
      literalOfQuoted (quoteMeta t.Value) = some t.Value) := by
  rcases q with ⟨reg, ir, txt⟩
  constructor
  · cases ir
    · cases txt with
      | none => simp [searchPrepare, buildPattern]
      | some t =>
        by_cases hc : compileOk ((if t.IgnoreCase then "(?i)" else "") ++
            quoteMeta t.Value) <;>
          simp [searchPrepare, buildPattern, hc]
    · cases reg with
      | none => simp [searchPrepare, buildPattern]
      | some r =>
        by_cases hc : compileOk r.Pattern <;>
          simp [searchPrepare, buildPattern, hc]
  · intro t hir htxt
    simp only at hir htxt
    subst hir
    subst htxt
    exact ⟨by simp [buildPattern], literalOfQuoted_quoteMeta t.Value⟩

/-- Witness for C5: a concrete case-insensitive text query for the
value containing a metacharacter. -/
theorem claim_C5_witness :
    buildPattern ⟨none, false, some ⟨"a.b", true⟩⟩ =
      Except.ok ((if true then "(?i)" else "") ++ quoteMeta "a.b") ∧
    literalOfQuoted (quoteMeta "a.b") = some "a.b" :=
  (claim_C5 (fun _ => true) ⟨none, false, some ⟨"a.b", true⟩⟩).2 ⟨"a.b", true⟩ rfl rfl

/-- Claim C8: an empty manifest date leaves the year zero; the full
timestamp format is attempted first and its year wins; on failure a
date of at least four characters whose first four characters parse as
a number yields that number, anything else leaving zero — in
particular the two documented examples. -/
theorem claim_C8 :
    yearFromDate "2023-05-15T10:30:00Z" = 2023 ∧
    yearFromDate "20231" = 2023 ∧
    yearFromDate "" = 0 ∧
    (∀ (s : String) (y : Int), s ≠ "" → parseRFC3339Year s = some y →
      yearFromDate s = y) ∧
    (∀ (s : String) (n : Int), s ≠ "" → parseRFC3339Year s = none →
      4 ≤ s.toList.length → goAtoi (String.mk (s.toList.take 4)) = some n →
      yearFromDate s = n) ∧
    (∀ s : String, s ≠ "" → parseRFC3339Year s = none →
      (s.toList.length < 4 ∨ goAtoi (String.mk (s.toList.take 4)) = none) →
      yearFromDate s = 0) := by
  refine ⟨by decide, by decide, rfl, ?_, ?_, ?_⟩
  · intro s y hne hp
    simp [yearFromDate, hne, hp]
  · intro s n hne hp hlen hatoi
    have hlen' : 4 ≤ s.length := hlen
    have hatoi' : goAtoi (String.mk (s.data.take 4)) = some n := hatoi
    simp [yearFromDate, hne, hp, hlen', hatoi']
  · intro s hne hp hrest
    rcases hrest with hlt | hnone
    · have hlen' : ¬(4 ≤ s.length) := by
        rw [show s.length = s.toList.length from rfl]
        omega
      simp [yearFromDate, hne, hp, hlen']
    · by_cases hlen : 4 ≤ s.toList.length
      · have hlen' : 4 ≤ s.length := hlen
        have hnone' : goAtoi (String.mk (s.data.take 4)) = none := hnone
        simp [yearFromDate, hne, hp, hlen', hnone']
      · have hlen' : ¬(4 ≤ s.length) := hlen
        simp [yearFromDate, hne, hp, hlen']

/-- Witness for C8: a date that fails the timestamp format but has a
numeric four-character lead. -/
theorem claim_C8_witness : yearFromDate "1999ish" = 1999 :=
  claim_C8.2.2.2.2.1 "1999ish" 1999 (by decide) (by decide) (by decide) (by decide)

/-- Claim C9: with metadata extraction disabled, the author, series
and title filters are never applied — every archive with at least one
match is delivered with zero-valued metadata regardless of the filter
values — and a path is withheld only when it has no matches or
extraction is enabled. -/
theorem claim_C9 :
    (∀ (filters : SearchRequestFilters) (path : String) (found : List Match)
        (extracted : Option Metadata), found ≠ [] →
      deliverResult false (some filters) path found extracted =
        some ⟨path, zeroMetadata, found⟩) ∧
    (∀ (em : Bool) (filters : Option SearchRequestFilters) (path : String)
        (found : List Match) (extracted : Option Metadata),
      deliverResult em filters path found extracted = none →
        found = [] ∨ em = true) := by
  constructor
  · intro filters path found extracted hne
    have hpos : 0 < found.length := List.length_pos.mpr hne
    simp [deliverResult, hpos]
  · intro em filters path found extracted h
    by_cases hf : found = []
    · exact Or.inl hf
    · cases em
      · exfalso
        have hpos : 0 < found.length := List.length_pos.mpr hf
        cases filters with
        | none => simp [deliverResult, hpos] at h
        | some fl => simp [deliverResult, hpos] at h
      · exact Or.inr rfl

/-- Witness for C9: a filtered request with extraction disabled still
delivers the result with zero metadata. -/
theorem claim_C9_witness :
    deliverResult false (some ⟨"Unknown Author", "S", "T", []⟩) "book.epub"
        [⟨"line", "f"⟩] none =
      some ⟨"book.epub", zeroMetadata, [⟨"line", "f"⟩]⟩ :=
  claim_C9.1 ⟨"Unknown Author", "S", "T", []⟩ "book.epub" [⟨"line", "f"⟩] none
    (by decide)

/-! ### Lemmas about the association-map model of Go maps -/

lemma mapGet_put_self {α : Type} (m : List (String × α)) (k : String) (v : α) :
    mapGet (mapPut m k v) k = some v := by
  induction m with
  | nil => simp [mapPut, mapGet]
  | cons e rest ih =>
    by_cases h : e.1 = k
    · cases e; simp_all [mapPut, mapGet]
    · cases e; simp_all [mapPut, mapGet]

lemma mapGet_put_ne {α : Type} (m : List (String × α)) (k k' : String) (v : α)
    (h : k' ≠ k) : mapGet (mapPut m k v) k' = mapGet m k' := by
  induction m with
  | nil => simp [mapPut, mapGet, Ne.symm h]
  | cons e rest ih =>
    by_cases he : e.1 = k <;> by_cases he' : e.1 = k' <;>
      cases e <;> simp_all [mapPut, mapGet, Ne.symm h]

lemma mem_keys_of_mapGet {α : Type} (m : List (String × α)) (k : String) (v : α)
    (h : mapGet m k = some v) : k ∈ mapKeys m := by
  induction m with
  | nil => simp [mapGet] at h
  | cons e rest ih =>
    by_cases he : e.1 = k
    · simp [mapKeys, he.symm]
    · cases e
      simp_all [mapGet, mapKeys]

lemma mapGet_mem {α : Type} (m : List (String × α)) (k : String) (v : α)
    (h : mapGet m k = some v) : (k, v) ∈ m := by
  induction m with
  | nil => simp [mapGet] at h
  | cons e rest ih =>
    by_cases he : e.1 = k
    · cases e; simp_all [mapGet]
    · cases e; simp_all [mapGet]

lemma mapGet_eq_none_iff {α : Type} (m : List (String × α)) (k : String) :
    mapGet m k = none ↔ k ∉ mapKeys m := by
  induction m with
  | nil => simp [mapGet, mapKeys]
  | cons e rest ih =>
    by_cases he : e.1 = k
    · cases e; simp_all [mapGet, mapKeys]
    · cases e with
      | mk k1 v1 =>
        have he2 : ¬(k1 = k) := by simpa using he
        have he' : ¬(k = k1) := fun hh => he2 hh.symm
        simp [mapGet, mapKeys, he2, he', ih]

lemma mapKeys_put_mem {α : Type} (m : List (String × α)) (k : String) (v : α)
    (h : k ∈ mapKeys m) : mapKeys (mapPut m k v) = mapKeys m := by
  induction m with
  | nil => simp [mapKeys] at h
  | cons e rest ih =>
    by_cases he : e.1 = k
    · cases e; simp_all [mapPut, mapKeys]
    · cases e with
      | mk k1 v1 =>
        have he2 : ¬(k1 = k) := by simpa using he
        have h' : k ∈ mapKeys rest := by
          have h2 : k ∈ k1 :: mapKeys rest := h
          rcases List.mem_cons.mp h2 with h1 | h1
          · exact absurd h1.symm he2
          · exact h1
        have hput : mapPut ((k1, v1) :: rest) k v = (k1, v1) :: mapPut rest k v := by
          simp [mapPut, he2]
        rw [hput]
        show k1 :: mapKeys (mapPut rest k v) = k1 :: mapKeys rest
        rw [ih h']

lemma mapKeys_put_not_mem {α : Type} (m : List (String × α)) (k : String) (v : α)
    (h : k ∉ mapKeys m) : mapKeys (mapPut m k v) = mapKeys m ++ [k] := by
  induction m with
  | nil => simp [mapPut, mapKeys]
  | cons e rest ih =>
    cases e with
    | mk k1 v1 =>
      simp only [mapKeys, List.map_cons, List.mem_cons] at h
      push_neg at h
      have hput : mapPut ((k1, v1) :: rest) k v = (k1, v1) :: mapPut rest k v := by
        simp [mapPut, Ne.symm h.1]
      rw [hput]
      show k1 :: mapKeys (mapPut rest k v) = (k1 :: mapKeys rest) ++ [k]
      rw [ih h.2]
      rfl

lemma mem_put {α : Type} (m : List (String × α)) (k : String) (v : α)
    (e : String × α) (h : e ∈ mapPut m k v) : e = (k, v) ∨ e ∈ m := by
  induction m with
  | nil => simpa [mapPut] using h
  | cons f rest ih =>
    by_cases hf : f.1 = k
    · cases f
      simp_all [mapPut]
      rcases h with h | h
      · exact Or.inl h
      · exact Or.inr (Or.inr h)
    · cases f
      simp_all [mapPut]
      rcases h with h | h
      · exact Or.inr (Or.inl h)
      · rcases ih h with h2 | h2
        · exact Or.inl h2
        · exact Or.inr (Or.inr h2)

lemma mem_del {α : Type} (m : List (String × α)) (k : String) (e : String × α)
    (h : e ∈ mapDel m k) : e ∈ m :=
  List.mem_of_mem_filter h

lemma mapKeys_del {α : Type} (m : List (String × α)) (k : String) :
    mapKeys (mapDel m k) = (mapKeys m).filter (fun q => q ≠ k) := by
  induction m with
  | nil => rfl
  | cons e rest ih =>
    by_cases he : e.1 = k
    · have h1 : mapDel (e :: rest) k = mapDel rest k := by
        simp [mapDel, List.filter_cons, he]
      have h2 : (mapKeys (e :: rest)).filter (fun q => q ≠ k) =
          (mapKeys rest).filter (fun q => q ≠ k) := by
        simp [mapKeys, List.filter_cons, he]
      rw [h1, h2, ih]
    · have h1 : mapDel (e :: rest) k = e :: mapDel rest k := by
        simp [mapDel, List.filter_cons, he]
      have h2 : (mapKeys (e :: rest)).filter (fun q => q ≠ k) =
          e.1 :: (mapKeys rest).filter (fun q => q ≠ k) := by
        simp [mapKeys, List.filter_cons, he]
      rw [h1, h2, ← ih]
      rfl

lemma length_keys {α : Type} (m : List (String × α)) :
    (mapKeys m).length = m.length := List.length_map m _

lemma nodup_keys_put {α : Type} (m : List (String × α)) (k : String) (v : α)
    (hnd : (mapKeys m).Nodup) : (mapKeys (mapPut m k v)).Nodup := by
  by_cases h : k ∈ mapKeys m
  · rw [mapKeys_put_mem m k v h]
    exact hnd
  · rw [mapKeys_put_not_mem m k v h]
    simp [List.nodup_append, hnd, h]

lemma nodup_keys_del {α : Type} (m : List (String × α)) (k : String)
    (hnd : (mapKeys m).Nodup) : (mapKeys (mapDel m k)).Nodup := by
  rw [mapKeys_del]
  exact hnd.filter _

lemma length_filter_ne (l : List String) (k : String) (hnd : l.Nodup)
    (h : k ∈ l) : (l.filter (fun q => q ≠ k)).length + 1 = l.length := by
  induction l with
  | nil => simp at h
  | cons q rest ih =>
    rcases List.mem_cons.mp h with hq | hq
    · have hqk : q = k := hq.symm
      subst hqk
      have hrest : rest.filter (fun x => x ≠ q) = rest := by
        apply List.filter_eq_self.mpr
        intro x hx
        have hxk : ¬(x = q) := fun hh => (List.nodup_cons.mp hnd).1 (hh ▸ hx)
        simpa using hxk
      rw [List.filter_cons_of_neg (by simp), hrest, List.length_cons]
    · have hq1 : ¬(q = k) := fun hh => (List.nodup_cons.mp hnd).1 (hh ▸ hq)
      have ih' := ih (List.nodup_cons.mp hnd).2 hq
      rw [List.filter_cons_of_pos (by simpa using hq1), List.length_cons,
        List.length_cons]
      omega

lemma length_del_mem {α : Type} (m : List (String × α)) (k : String)
    (hnd : (mapKeys m).Nodup) (h : k ∈ mapKeys m) :
    (mapDel m k).length + 1 = m.length := by
  have h1 := length_filter_ne (mapKeys m) k hnd h
  rw [← length_keys, mapKeys_del, ← length_keys m]
  exact h1

lemma mapGet_of_mem_nodup {α : Type} (m : List (String × α)) (k : String) (v : α)
    (hnd : (mapKeys m).Nodup) (h : (k, v) ∈ m) : mapGet m k = some v := by
  induction m with
  | nil => simp at h
  | cons e rest ih =>
    cases e with
    | mk k1 v1 =>
      rcases List.mem_cons.mp h with h1 | h1
      · have hk : k = k1 := congrArg Prod.fst h1
        have hv : v = v1 := congrArg Prod.snd h1
        subst hk
        subst hv
        simp [mapGet]
      · have hk1 : ¬(k1 = k) := by
          intro hh
          have : k ∈ mapKeys rest := by
            have := List.mem_map_of_mem (fun e : String × α => e.1) h1
            simpa [mapKeys] using this
          rw [hh] at hnd
          exact (List.nodup_cons.mp (by simpa [mapKeys] using hnd)).1 this
        have hnd' : (mapKeys rest).Nodup :=
          (List.nodup_cons.mp (by simpa [mapKeys] using hnd)).2
        simp [mapGet, hk1, ih hnd' h1]

/-! ### Lemmas about the eviction scan and the cache invariant -/

lemma minFold_spec (l : List (String × Nat)) :
    ∀ best : String × Nat,
      (minFold best l = best ∨ minFold best l ∈ l) ∧
      (minFold best l).2 ≤ best.2 ∧ ∀ e ∈ l, (minFold best l).2 ≤ e.2 := by
  induction l with
  | nil => intro best; simp [minFold]
  | cons e rest ih =>
    intro best
    have hstep : minFold best (e :: rest) =
        minFold (if e.2 < best.2 then e else best) rest := rfl
    by_cases h : e.2 < best.2
    · have hrec := ih e
      rw [hstep, if_pos h]
      refine ⟨?_, ?_, ?_⟩
      · rcases hrec.1 with h1 | h1
        · exact Or.inr (by simp [h1])
        · exact Or.inr (List.mem_cons_of_mem _ h1)
      · exact le_trans hrec.2.1 (le_of_lt h)
      · intro f hf
        rcases List.mem_cons.mp hf with hf1 | hf1
        · rw [hf1]; exact hrec.2.1
        · exact hrec.2.2 f hf1
    · have hrec := ih best
      rw [hstep, if_neg h]
      refine ⟨?_, ?_, ?_⟩
      · rcases hrec.1 with h1 | h1
        · exact Or.inl h1
        · exact Or.inr (List.mem_cons_of_mem _ h1)
      · exact hrec.2.1
      · intro f hf
        rcases List.mem_cons.mp hf with hf1 | hf1
        · rw [hf1]; exact le_trans hrec.2.1 (by omega)
        · exact hrec.2.2 f hf1

lemma evictMin_spec (l : List (String × Nat)) (hne : l ≠ [])
    (hb : ∀ e ∈ l, e.2 < goMaxInt) :
    minFold ("", goMaxInt) l ∈ l ∧ ∀ e ∈ l, (minFold ("", goMaxInt) l).2 ≤ e.2 := by
  have h := minFold_spec l ("", goMaxInt)
  rcases h.1 with h1 | h1
  · exfalso
    rcases List.exists_mem_of_ne_nil l hne with ⟨e, he⟩
    have h2 := h.2.2 e he
    rw [h1] at h2
    exact absurd (lt_of_le_of_lt h2 (hb e he)) (lt_irrefl _)
  · exact ⟨h1, h.2.2⟩

def cacheWF (rc : regexCache) (n : Nat) : Prop :=
  (mapKeys rc.cache).Nodup ∧ (mapKeys rc.accesses).Nodup ∧
  (∀ q, q ∈ mapKeys rc.cache ↔ q ∈ mapKeys rc.accesses) ∧
  (∀ e ∈ rc.accesses, 1 ≤ e.2 ∧ e.2 ≤ n) ∧
  rc.cache.length ≤ rc.maxSize

lemma rcGet_maxSize (compileOk : String → Bool) (rc : regexCache) (pat : String) :
    (rcGet compileOk rc pat).2.maxSize = rc.maxSize := by
  unfold rcGet
  cases mapGet rc.cache pat with
  | some re => rfl
  | none =>
    by_cases hc : compileOk pat
    · by_cases hcap : rc.maxSize ≤ rc.cache.length <;> simp [hc, hcap]
    · simp [hc]

lemma rcGet_preserves (compileOk : String → Bool) (rc : regexCache) (pat : String)
    (n : Nat) (hm : 1 ≤ rc.maxSize) (hwf : cacheWF rc n) (hn : n < goMaxInt) :
    cacheWF (rcGet compileOk rc pat).2 (n + 1) := by
  obtain ⟨hndC, hndA, hiff, hcnt, hlen⟩ := hwf
  cases hget : mapGet rc.cache pat with
  | some re =>
    -- hit: only the access count of pat is bumped
    have hstep : (rcGet compileOk rc pat).2 =
        { rc with accesses := bumpA rc.accesses pat } := by
      unfold rcGet
      rw [hget]
    rw [hstep]
    have hpatC : pat ∈ mapKeys rc.cache := mem_keys_of_mapGet _ _ _ hget
    have hpatA : pat ∈ mapKeys rc.accesses := (hiff pat).mp hpatC
    refine ⟨hndC, ?_, ?_, ?_, hlen⟩
    · show (mapKeys (bumpA rc.accesses pat)).Nodup
      exact nodup_keys_put _ _ _ hndA
    · intro q
      show q ∈ mapKeys rc.cache ↔ q ∈ mapKeys (bumpA rc.accesses pat)
      rw [show mapKeys (bumpA rc.accesses pat) = mapKeys rc.accesses from
        mapKeys_put_mem _ _ _ hpatA]
      exact hiff q
    · intro e he
      rcases mem_put _ _ _ _ he with h1 | h1
      · have hb : (mapGet rc.accesses pat).getD 0 ≤ n := by
          cases hga : mapGet rc.accesses pat with
          | none => simp
          | some c =>
            have := hcnt (pat, c) (mapGet_mem _ _ _ hga)
            simpa using this.2
        rw [h1]
        exact ⟨by simp, by simp; omega⟩
      · have := hcnt e h1
        exact ⟨this.1, by omega⟩
  | none =>
    by_cases hc : compileOk pat
    · have hnotC : pat ∉ mapKeys rc.cache := (mapGet_eq_none_iff _ _).mp hget
      have hnotA : pat ∉ mapKeys rc.accesses := fun h => hnotC ((hiff pat).mpr h)
      by_cases hcap : rc.maxSize ≤ rc.cache.length
      · -- at capacity: evict, then insert
        have hstep : (rcGet compileOk rc pat).2 =
            { rc with
                cache := mapPut (mapDel rc.cache (evictMin rc.accesses)) pat
                  ⟨pat, rc.nextId⟩,
                accesses := mapPut (mapDel rc.accesses (evictMin rc.accesses)) pat 1,
                nextId := rc.nextId + 1 } := by
          unfold rcGet
          rw [hget]
          simp [hc, hcap]
        have hcapEq : rc.cache.length = rc.maxSize := le_antisymm hlen hcap
        have hAne : rc.accesses ≠ [] := by
          intro hA
          have h0 : rc.cache.length = 0 := by
            cases hcache : rc.cache with
            | nil => simp
            | cons e rest =>
              exfalso
              have : e.1 ∈ mapKeys rc.cache := by rw [hcache]; simp [mapKeys]
              have := (hiff e.1).mp this
              rw [hA] at this
              simp [mapKeys] at this
          omega
        have hbnd : ∀ e ∈ rc.accesses, e.2 < goMaxInt := fun e he =>
          lt_of_le_of_lt (hcnt e he).2 hn
        obtain ⟨hevMem, _⟩ := evictMin_spec rc.accesses hAne hbnd
        have hevKeyA : evictMin rc.accesses ∈ mapKeys rc.accesses := by
          show (minFold ("", goMaxInt) rc.accesses).1 ∈ mapKeys rc.accesses
          exact List.mem_map_of_mem _ hevMem
        have hevKeyC : evictMin rc.accesses ∈ mapKeys rc.cache :=
          (hiff _).mpr hevKeyA
        have hnotC' : pat ∉ mapKeys (mapDel rc.cache (evictMin rc.accesses)) := by
          rw [mapKeys_del]
          intro h
          exact hnotC (List.mem_of_mem_filter h)
        have hnotA' : pat ∉ mapKeys (mapDel rc.accesses (evictMin rc.accesses)) := by
          rw [mapKeys_del]
          intro h
          exact hnotA (List.mem_of_mem_filter h)
        rw [hstep]
        refine ⟨?_, ?_, ?_, ?_, ?_⟩
        · exact nodup_keys_put _ _ _ (nodup_keys_del _ _ hndC)
        · exact nodup_keys_put _ _ _ (nodup_keys_del _ _ hndA)
        · intro q
          show q ∈ mapKeys (mapPut (mapDel rc.cache (evictMin rc.accesses)) pat _) ↔
            q ∈ mapKeys (mapPut (mapDel rc.accesses (evictMin rc.accesses)) pat 1)
          rw [mapKeys_put_not_mem _ _ _ hnotC', mapKeys_put_not_mem _ _ _ hnotA',
            mapKeys_del, mapKeys_del]
          constructor
          · intro h
            rcases List.mem_append.mp h with h1 | h1
            · have h2 := List.of_mem_filter h1
              have h3 := List.mem_of_mem_filter h1
              exact List.mem_append.mpr (Or.inl (List.mem_filter.mpr
                ⟨(hiff q).mp h3, h2⟩))
            · exact List.mem_append.mpr (Or.inr h1)
          · intro h
            rcases List.mem_append.mp h with h1 | h1
            · have h2 := List.of_mem_filter h1
              have h3 := List.mem_of_mem_filter h1
              exact List.mem_append.mpr (Or.inl (List.mem_filter.mpr
                ⟨(hiff q).mpr h3, h2⟩))
            · exact List.mem_append.mpr (Or.inr h1)
        · intro e he
          rcases mem_put _ _ _ _ he with h1 | h1
          · rw [h1]
            exact ⟨le_refl 1, by omega⟩
          · have := hcnt e (mem_del _ _ _ h1)
            exact ⟨this.1, by omega⟩
        · show (mapPut (mapDel rc.cache (evictMin rc.accesses)) pat
              ⟨pat, rc.nextId⟩).length ≤ rc.maxSize
          have hdel : (mapDel rc.cache (evictMin rc.accesses)).length + 1 =
              rc.cache.length := length_del_mem _ _ hndC hevKeyC
          have hput : (mapPut (mapDel rc.cache (evictMin rc.accesses)) pat
              ⟨pat, rc.nextId⟩).length =
              (mapDel rc.cache (evictMin rc.accesses)).length + 1 := by
            rw [← length_keys, mapKeys_put_not_mem _ _ _ hnotC',
              List.length_append, length_keys]
            rfl
          omega
      · -- below capacity: plain insert
        have hstep : (rcGet compileOk rc pat).2 =
            { rc with cache := mapPut rc.cache pat ⟨pat, rc.nextId⟩,
                      accesses := mapPut rc.accesses pat 1,
                      nextId := rc.nextId + 1 } := by
          unfold rcGet
          rw [hget]
          simp [hc, hcap]
        rw [hstep]
        refine ⟨?_, ?_, ?_, ?_, ?_⟩
        · exact nodup_keys_put _ _ _ hndC
        · exact nodup_keys_put _ _ _ hndA
        · intro q
          show q ∈ mapKeys (mapPut rc.cache pat _) ↔
            q ∈ mapKeys (mapPut rc.accesses pat 1)
          rw [mapKeys_put_not_mem _ _ _ hnotC, mapKeys_put_not_mem _ _ _ hnotA]
          constructor
          · intro h
            rcases List.mem_append.mp h with h1 | h1
            · exact List.mem_append.mpr (Or.inl ((hiff q).mp h1))
            · exact List.mem_append.mpr (Or.inr h1)
          · intro h
            rcases List.mem_append.mp h with h1 | h1
            · exact List.mem_append.mpr (Or.inl ((hiff q).mpr h1))
            · exact List.mem_append.mpr (Or.inr h1)
        · intro e he
          rcases mem_put _ _ _ _ he with h1 | h1
          · rw [h1]
            exact ⟨le_refl 1, by omega⟩
          · have := hcnt e h1
            exact ⟨this.1, by omega⟩
        · show (mapPut rc.cache pat ⟨pat, rc.nextId⟩).length ≤ rc.maxSize
          have hput : (mapPut rc.cache pat ⟨pat, rc.nextId⟩).length =
              rc.cache.length + 1 := by
            rw [← length_keys, mapKeys_put_not_mem _ _ _ hnotC,
              List.length_append, length_keys]
            rfl
          omega
    · have hstep : (rcGet compileOk rc pat).2 = rc := by
        unfold rcGet
        rw [hget]
        simp [hc]
      rw [hstep]
      refine ⟨hndC, hndA, hiff, ?_, hlen⟩
      intro e he
      have := hcnt e he
      exact ⟨this.1, by omega⟩

lemma rcRun_loop (compileOk : String → Bool) (pats : List String) :
    ∀ (rc : regexCache) (n : Nat), 1 ≤ rc.maxSize → cacheWF rc n →
      n + pats.length ≤ goMaxInt →
      cacheWF (pats.foldl (fun rc pat => (rcGet compileOk rc pat).2) rc)
          (n + pats.length) ∧
      (pats.foldl (fun rc pat => (rcGet compileOk rc pat).2) rc).maxSize =
        rc.maxSize := by
  induction pats with
  | nil =>
    intro rc n _ hwf _
    exact ⟨by simpa using hwf, rfl⟩
  | cons p rest ih =>
    intro rc n hm hwf hle
    have hlen : (p :: rest).length = rest.length + 1 := by simp
    have hn : n < goMaxInt := by omega
    have h1 := rcGet_preserves compileOk rc p n hm hwf hn
    have hms := rcGet_maxSize compileOk rc p
    have hm1 : 1 ≤ (rcGet compileOk rc p).2.maxSize := by
      rw [hms]
      exact hm
    have h2 := ih ((rcGet compileOk rc p).2) (n + 1) hm1 h1 (by omega)
    simp only [List.foldl_cons]
    constructor
    · have heq : n + (p :: rest).length = (n + 1) + rest.length := by omega
      rw [heq]
      exact h2.1
    · rw [h2.2, hms]

/-- Claim C10: for every cache created with maxSize at least 1 and
every sequence of sequential get calls (of any realizable length,
i.e. fewer than the 2^63 - 1 calls after which a Go int counter would
overflow), the cache afterwards holds at most maxSize entries, the
cached pattern keys coincide with the access-counter keys, and every
recorded access counter is at least 1. -/
theorem claim_C10 (maxSize : Nat) (compileOk : String → Bool) (pats : List String)
    (hm : 1 ≤ maxSize) (hlen : pats.length < goMaxInt) :
    (rcRun compileOk maxSize pats).cache.length ≤ maxSize ∧
    (∀ q, q ∈ mapKeys (rcRun compileOk maxSize pats).cache ↔
      q ∈ mapKeys (rcRun compileOk maxSize pats).accesses) ∧
    ∀ e ∈ (rcRun compileOk maxSize pats).accesses, 1 ≤ e.2 := by
  have hwf0 : cacheWF (newRegexCache maxSize) 0 := by
    refine ⟨by simp [newRegexCache, mapKeys], by simp [newRegexCache, mapKeys],
      ?_, ?_, ?_⟩
    · intro q
      simp [newRegexCache, mapKeys]
    · intro e he
      simp [newRegexCache] at he
    · simp [newRegexCache]
  have h := rcRun_loop compileOk pats (newRegexCache maxSize) 0 hm hwf0 (by omega)
  obtain ⟨⟨hndC, hndA, hiff, hcnt, hlen'⟩, hms⟩ := h
  refine ⟨?_, hiff, fun e he => (hcnt e he).1⟩
  exact le_trans hlen' (le_of_eq hms)

/-- Claim C4: a get on a cached pattern returns the identical cached
compiled object and increments that pattern's counter by one; a new
distinct pattern compiled while the cache holds maxSize entries first
evicts an entry with the lowest recorded access counter and then
inserts the new entry with its counter set to 1; a pattern that fails
to compile yields an error and leaves the cache unchanged. -/
theorem claim_C4 (compileOk : String → Bool) (rc : regexCache) (pat : String) :
    (∀ re, mapGet rc.cache pat = some re →
      (rcGet compileOk rc pat).1 = Except.ok re ∧
      (rcGet compileOk rc pat).2.cache = rc.cache ∧
      mapGet (rcGet compileOk rc pat).2.accesses pat =
        some ((mapGet rc.accesses pat).getD 0 + 1)) ∧
    (mapGet rc.cache pat = none → compileOk pat = true →
      rc.cache.length = rc.maxSize → 1 ≤ rc.maxSize →
      (mapKeys rc.accesses).Nodup →
      (∀ q, q ∈ mapKeys rc.cache ↔ q ∈ mapKeys rc.accesses) →
      (∀ e ∈ rc.accesses, e.2 < goMaxInt) →
      ∃ ev, ev ∈ mapKeys rc.accesses ∧
        (∀ e ∈ rc.accesses, (mapGet rc.accesses ev).getD 0 ≤ e.2) ∧
        (rcGet compileOk rc pat).1 = Except.ok ⟨pat, rc.nextId⟩ ∧
        (rcGet compileOk rc pat).2.cache =
          mapPut (mapDel rc.cache ev) pat ⟨pat, rc.nextId⟩ ∧
        (rcGet compileOk rc pat).2.accesses =
          mapPut (mapDel rc.accesses ev) pat 1) ∧
    (mapGet rc.cache pat = none → compileOk pat = false →
      (rcGet compileOk rc pat).1 = Except.error () ∧
      (rcGet compileOk rc pat).2 = rc) := by
  refine ⟨?_, ?_, ?_⟩
  · intro re hget
    have hstep : rcGet compileOk rc pat =
        (Except.ok re, { rc with accesses := bumpA rc.accesses pat }) := by
      unfold rcGet
      rw [hget]
    rw [hstep]
    exact ⟨rfl, rfl, mapGet_put_self _ _ _⟩
  · intro hget hc hcap hm hndA hiff hbnd
    have hstep : (rcGet compileOk rc pat).2 =
        { rc with
            cache := mapPut (mapDel rc.cache (evictMin rc.accesses)) pat
              ⟨pat, rc.nextId⟩,
            accesses := mapPut (mapDel rc.accesses (evictMin rc.accesses)) pat 1,
            nextId := rc.nextId + 1 } := by
      unfold rcGet
      rw [hget]
      simp [hc, le_of_eq hcap.symm]
    have hres : (rcGet compileOk rc pat).1 = Except.ok ⟨pat, rc.nextId⟩ := by
      unfold rcGet
      rw [hget]
      simp [hc]
    have hAne : rc.accesses ≠ [] := by
      intro hA
      have h0 : rc.cache.length = 0 := by
        cases hcache : rc.cache with
        | nil => simp
        | cons e rest =>
          exfalso
          have h1 : e.1 ∈ mapKeys rc.cache := by
            rw [hcache]
            simp [mapKeys]
          have h2 := (hiff e.1).mp h1
          rw [hA] at h2
          simp [mapKeys] at h2
      omega
    obtain ⟨hevMem, hevMin⟩ := evictMin_spec rc.accesses hAne hbnd
    have hevKeyA : evictMin rc.accesses ∈ mapKeys rc.accesses :=
      List.mem_map_of_mem _ hevMem
    have hgetEv : mapGet rc.accesses (evictMin rc.accesses) =
        some (minFold ("", goMaxInt) rc.accesses).2 :=
      mapGet_of_mem_nodup _ _ _ hndA hevMem
    refine ⟨evictMin rc.accesses, hevKeyA, ?_, hres, ?_, ?_⟩
    · intro e he
      rw [hgetEv]
      simpa using hevMin e he
    · rw [hstep]
    · rw [hstep]
  · intro hget hc
    have hstep : rcGet compileOk rc pat = (Except.error (), rc) := by
      unfold rcGet
      rw [hget]
      simp [hc]
    rw [hstep]
    exact ⟨rfl, rfl⟩

/-- A concrete two-entry cache at capacity, for the C4 witness. -/
def rcW : regexCache :=
  ⟨[("a", ⟨"a", 0⟩), ("b", ⟨"b", 1⟩)], [("a", 2), ("b", 1)], 2, 2⟩

/-- Witness for C4: a hit on a cached pattern and a failing compile,
both at concrete caches. -/
theorem claim_C4_witness :
    ((rcGet (fun _ => true) rcW "a").1 = Except.ok ⟨"a", 0⟩ ∧
      (rcGet (fun _ => true) rcW "a").2.cache = rcW.cache ∧
      mapGet (rcGet (fun _ => true) rcW "a").2.accesses "a" =
        some ((mapGet rcW.accesses "a").getD 0 + 1)) ∧
    (rcGet (fun _ => false) rcW "zz").1 = Except.error () ∧
    (rcGet (fun _ => false) rcW "zz").2 = rcW :=
  ⟨(claim_C4 (fun _ => true) rcW "a").1 ⟨"a", 0⟩ (by decide),
   (claim_C4 (fun _ => false) rcW "zz").2.2 (by decide) rfl⟩

/-- Witness for C10: the invariant bound at a concrete run that
exercises an eviction. -/
theorem claim_C10_witness :
    (rcRun (fun _ => true) 2 ["a", "b", "a", "c"]).cache.length ≤ 2 :=
  (claim_C10 2 (fun _ => true) ["a", "b", "a", "c"] (by decide) (by decide)).1

end EpubGrep
